import Mathlib

/-!
Verification development for the 1D electrostatic particle-in-cell engine in
`backend/app/agent/tools/pic/pic.py` together with the stepping loop of
`backend/app/agent/tools/pic_simulation.py`.

Exact rational arithmetic stands in for IEEE doubles.  Real numbers are used
where the source evaluates transcendental functions (`exp`, `cos`, `sqrt`,
`pi`).  The CUDA integer operations are modelled with their C semantics:
`round` rounds half away from zero, `%` on `int` truncates toward zero
(`Int.tmod`), and `fmod` on doubles is `x - y * trunc(x / y)`.
-/

/-- Truncation of a rational toward zero, the semantics of C float-to-int
truncation used below to model `fmod`. -/
def qtrunc (q : ℚ) : ℤ := if q < 0 then -(⌊-q⌋) else ⌊q⌋

/-- C `round` on doubles (round half away from zero), used by both CUDA
kernels in `int grid_idx = round(pos / dx)`. -/
def cround (q : ℚ) : ℤ := if q < 0 then -(⌊-q + 1 / 2⌋) else ⌊q + 1 / 2⌋

/-- C `fmod` on doubles in exact arithmetic: `x - y * trunc(x / y)`; the
result has the sign of `x` and magnitude below `y`. -/
def cfmod (a b : ℚ) : ℚ := a - b * ((qtrunc (a / b) : ℤ) : ℚ)

/-- Grid index computed by `deposit_charge_kernel`:
`int grid_idx = round(pos / dx); grid_idx = (grid_idx % Ng + Ng) % Ng;`
where the C `%` on `int` is truncating division remainder (`Int.tmod`). -/
def deposit_grid_index (pos dx : ℚ) (Ng : ℕ) : ℤ :=
  ((cround (pos / dx)).tmod (Ng : ℤ) + (Ng : ℤ)).tmod (Ng : ℤ)

/-- Grid index computed by `push_particles_kernel` to gather the field; the
kernel repeats the same two lines as the deposition kernel. -/
def gather_grid_index (pos dx : ℚ) (Ng : ℕ) : ℤ :=
  ((cround (pos / dx)).tmod (Ng : ℤ) + (Ng : ℤ)).tmod (Ng : ℤ)

/-- The scatter of `deposit_charge_kernel`: every particle adds
`charge_per_particle / dx` into cell `deposit_grid_index` of `rho_grid`.  The
CUDA kernel runs the per-particle `atomicAdd`s in parallel; the combined
effect is the fold over the particle list. -/
def deposit_charge_kernel (positions : List ℚ) (charge_per_particle dx : ℚ)
    (Ng : ℕ) (rho_grid : List ℚ) : List ℚ :=
  positions.foldl
    (fun rho pos =>
      rho.set (deposit_grid_index pos dx Ng).toNat
        (rho.getD (deposit_grid_index pos dx Ng).toNat 0 + charge_per_particle / dx))
    rho_grid

/-- The per-particle update of `push_particles_kernel` once the local field
value has been gathered: `vp += re * E * dt; new_pos = xp + vp * dt;
new_pos = fmod(new_pos, L); if (new_pos < 0) new_pos += L;`. -/
def push_one (x v E_particle re dt L : ℚ) : ℚ × ℚ :=
  let v' := v + re * E_particle * dt
  let x' := x + v' * dt
  let w := cfmod x' L
  (if w < 0 then w + L else w, v')

/-- `push_particles_kernel`: for each particle, gather `Eg` at the nearest
grid point of the pre-push position, then update velocity and position.
Returns the updated position and velocity arrays. -/
def push_particles_kernel (xp vp Eg : List ℚ) (re dt dx : ℚ) (Ng : ℕ) (L : ℚ) :
    List ℚ × List ℚ :=
  let upd := (xp.zip vp).map fun p =>
    push_one p.1 p.2 (Eg.getD (gather_grid_index p.1 dx Ng).toNat 0) re dt L
  (upd.map Prod.fst, upd.map Prod.snd)

/-- `charge(re_1, re_2, N_ions, N1, N2, L, wp_e)`: the two macro-particle
charges and the static ion background density. -/
def charge (re_1 re_2 : ℚ) (N_ions N1 N2 : ℕ) (L wp_e : ℚ) : ℚ × ℚ × ℚ :=
  let Q_1 := (wp_e ^ 2 * L) / ((N1 : ℚ) * re_1)
  let Q_2 := if 0 < re_2 then -Q_1 * ((N1 : ℚ) / (N2 : ℚ))
    else if re_2 < 0 then Q_1 * ((N1 : ℚ) / (N2 : ℚ)) else 0
  let rho_ions := (-Q_1 / L) * (N_ions : ℚ)
  (Q_1, Q_2, rho_ions)

/-- The `(Ng-1) x (Ng-1)` tridiagonal operator built by
`poisson_equation_preparation` via `spdiags([un, -2*un, un], [-1, 0, 1])`:
`-2` on the diagonal, `1` on the sub- and super-diagonal. -/
def Ax_matrix (m : ℕ) : Matrix (Fin m) (Fin m) ℚ :=
  Matrix.of fun i k =>
    if (i : ℕ) = (k : ℕ) then -2
    else if (i : ℕ) = (k : ℕ) + 1 ∨ (k : ℕ) = (i : ℕ) + 1 then 1 else 0

/-- `poisson_equation_preparation(Ng)`: the sparse matrix for the CPU Poisson
solver, of size `(Ng-1) x (Ng-1)`. -/
def poisson_equation_preparation (Ng : ℕ) : Matrix (Fin (Ng - 1)) (Fin (Ng - 1)) ℚ :=
  Ax_matrix (Ng - 1)

/-- Entry of the explicit inverse of `Ax_matrix m` (0-indexed):
`-(min i j + 1) * (m - max i j) / (m + 1)`. -/
def Ax_inv_entry (m a b : ℕ) : ℚ :=
  -((min a b + 1 : ℕ) : ℚ) * ((m : ℚ) - ((max a b : ℕ) : ℚ)) / ((m : ℚ) + 1)

/-- Explicit inverse of the tridiagonal operator.  `scipy.sparse.linalg.spsolve`
on the fixed nonsingular operator is modelled as multiplication by this
matrix; the development proves `Ax_matrix m * Ax_inv m = 1`, so this is the
unique solution of the linear system that `spsolve` returns. -/
def Ax_inv (m : ℕ) : Matrix (Fin m) (Fin m) ℚ :=
  Matrix.of fun i j => Ax_inv_entry m (i : ℕ) (j : ℕ)

/-- `solve_field_cpu`: keep the first `Ng-1` density entries, solve
`Ax * Phi = -rho * dx^2`, append the pinned node `Phi[Ng-1] = 0`, and derive
`Eg = (np.roll(Phi, 1) - np.roll(Phi, -1)) / (2 * dx)`, i.e.
`Eg[i] = (Phi[(i-1) mod Ng] - Phi[(i+1) mod Ng]) / (2 * dx)`. -/
def solve_field_cpu (charge_density_cpu : List ℚ) (Ng : ℕ) (dx : ℚ) :
    List ℚ × List ℚ :=
  let Phi_int : Fin (Ng - 1) → ℚ :=
    (Ax_inv (Ng - 1)).mulVec fun i => -(charge_density_cpu.getD (i : ℕ) 0) * dx ^ 2
  let Phi : List ℚ := List.ofFn Phi_int ++ [0]
  let Eg : List ℚ := List.ofFn fun i : Fin Ng =>
    (Phi.getD (((i : ℕ) + (Ng - 1)) % Ng) 0 - Phi.getD (((i : ℕ) + 1) % Ng) 0) / (2 * dx)
  (Phi, Eg)

/-- The aggregated charge density of one loop iteration of
`PICSimulation._run_simulation`: both species scatter onto the zeroed grid,
then the uniform ion background is added to every cell. -/
def step_charge_density (xp1 xp2 : List ℚ) (Q1 Q2 dx : ℚ) (Ng : ℕ)
    (rho_ions : ℚ) : List ℚ :=
  (deposit_charge_kernel xp2 Q2 dx Ng
    (deposit_charge_kernel xp1 Q1 dx Ng (List.replicate Ng 0))).map (· + rho_ions)

/-- One output record of `_run_simulation` (`frame_data`). -/
structure Frame where
  iteration : ℕ
  time : ℚ
  positions1 : List ℚ
  velocities1 : List ℚ
  positions2 : List ℚ
  velocities2 : List ℚ
  electric_field : List ℚ
  potential : List ℚ
  charge_density : List ℚ

/-- The mutable particle state of the two species inside the loop. -/
structure SimState where
  xp1 : List ℚ
  vp1 : List ℚ
  xp2 : List ℚ
  vp2 : List ℚ

/-- One iteration of `PICSimulation._run_simulation`: zero the density,
deposit both species, add the ion background, solve the field, push both
species.  Returns the new particle state and this iteration's
`(Eg, Phi, rho)`. -/
def simulation_step (Ng : ℕ) (dx dt L Q1 Q2 re_1 re_2 rho_ions : ℚ)
    (s : SimState) : SimState × (List ℚ × List ℚ × List ℚ) :=
  let rho := step_charge_density s.xp1 s.xp2 Q1 Q2 dx Ng rho_ions
  let PhiE := solve_field_cpu rho Ng dx
  let p1 := push_particles_kernel s.xp1 s.vp1 PhiE.2 re_1 dt dx Ng L
  let p2 := push_particles_kernel s.xp2 s.vp2 PhiE.2 re_2 dt dx Ng L
  (⟨p1.1, p1.2, p2.1, p2.2⟩, (PhiE.2, PhiE.1, rho))

/-- The frame-collecting loop of `_run_simulation`: at iteration `it` with
`n` iterations left out of `steps` total, run one `simulation_step` and emit
a frame when `it % save_interval == 0 or it == steps - 1`, where
`save_interval = max(1, steps // 50)`. -/
def simulation_loop (Ng : ℕ) (dx dt L Q1 Q2 re_1 re_2 rho_ions : ℚ)
    (steps : ℕ) : SimState → ℕ → ℕ → List Frame
  | _, _, 0 => []
  | s, it, n + 1 =>
    let r := simulation_step Ng dx dt L Q1 Q2 re_1 re_2 rho_ions s
    let rest := simulation_loop Ng dx dt L Q1 Q2 re_1 re_2 rho_ions steps r.1 (it + 1) n
    if it % max 1 (steps / 50) = 0 ∨ it = steps - 1 then
      ⟨it, (it : ℚ) * dt, r.1.xp1, r.1.vp1, r.1.xp2, r.1.vp2,
        r.2.1, r.2.2.1, r.2.2.2⟩ :: rest
    else rest

/-- `PICSimulation._run_simulation` after particle loading, with its fixed
constants `L = 64.0`, `dt = 0.1`, `dx = L / Ng`; `Ng` is the `grid_size`
parameter and `steps` the `simulation_steps` parameter.  The initial particle
arrays and the setup constants produced by `charge` are passed in. -/
def run_simulation (Ng steps : ℕ) (Q1 Q2 re_1 re_2 rho_ions : ℚ)
    (s0 : SimState) : List Frame :=
  simulation_loop Ng (64 / (Ng : ℚ)) (1 / 10) 64 Q1 Q2 re_1 re_2 rho_ions steps s0 0 steps

/-- `maxwell_boltzman_dist_1D_cupy(v, v_0, v_th)`: the drifting 1D Maxwellian
density with `n_0 = 1.0`. -/
noncomputable def maxwell_boltzman_dist_1D_cupy (v v_0 v_th : ℝ) : ℝ :=
  let n_0 : ℝ := 1
  (n_0 / (Real.sqrt (2 * Real.pi) * v_th)) *
    Real.exp (-((v - v_0) ^ 2) / (2 * v_th ^ 2))

/-- One batch of `acceptance_rejection_cupy`.  Each random pair `(r1, r2)`
yields candidate `v_min + r1 * (v_max - v_min)` and threshold
`r2 * f(v_0)` (the peak value of the Maxwellian is at the drift `v_0`); the
candidate is kept exactly when the threshold is below `f(candidate)` (the
vectorized mask `u_candidates < f_values`). -/
noncomputable def accept_batch (v_min v_max v_0 v_th : ℝ) :
    List (ℝ × ℝ) → List ℝ
  | [] => []
  | r :: rest =>
    if r.2 * maxwell_boltzman_dist_1D_cupy v_0 v_0 v_th <
        maxwell_boltzman_dist_1D_cupy (v_min + r.1 * (v_max - v_min)) v_0 v_th then
      (v_min + r.1 * (v_max - v_min)) :: accept_batch v_min v_max v_0 v_th rest
    else accept_batch v_min v_max v_0 v_th rest

/-- The accumulation loop of `acceptance_rejection_cupy`
(`while accepted_speeds.size < N`), with the random draws supplied
externally as a list of batches of pairs `(r1, r2)`.  The source draws fresh
randomness forever; an exhausted finite supply with the target unmet is
`none`. -/
noncomputable def ar_loop (v_min v_max v_0 v_th : ℝ) (N : ℕ) :
    List ℝ → List (List (ℝ × ℝ)) → Option (List ℝ)
  | acc, [] => if N ≤ acc.length then some (acc.take N) else none
  | acc, b :: rest =>
    if N ≤ acc.length then some (acc.take N)
    else ar_loop v_min v_max v_0 v_th N (acc ++ accept_batch v_min v_max v_0 v_th b) rest

/-- `acceptance_rejection_cupy`: run the rejection loop from the empty
accumulator and truncate to the first `N` accepted samples. -/
noncomputable def acceptance_rejection_cupy (v_min v_max v_0 v_th : ℝ) (N : ℕ)
    (batches : List (List (ℝ × ℝ))) : Option (List ℝ) :=
  ar_loop v_min v_max v_0 v_th N [] batches

/-- The position half of `initial_loading`: `np.linspace(0, L, N)` — endpoint
included, values `i * L / (N - 1)` — then, when `amplitude != 0`, the
perturbation `x += amplitude * cos(2 * pi * mode * x / L)` with no re-wrap.
Velocities are drawn separately by `acceptance_rejection_cupy`. -/
noncomputable def initial_loading_positions (N : ℕ) (amplitude mode L : ℝ) :
    List ℝ :=
  let position := (List.range N).map fun i : ℕ => (i : ℝ) * L / ((N : ℝ) - 1)
  if amplitude ≠ 0 then
    position.map fun x => x + amplitude * Real.cos (2 * Real.pi * mode * x / L)
  else position

/-! Theorems.  Helper lemmas come first, then one theorem per claim (with a
witness where the claim theorem carries hypotheses). -/

/-- Helper: the C double-remainder wrap `((a % n) + n) % n` with truncating
`%` equals the mathematical (Euclidean) remainder of `a` mod `n`. -/
theorem tmod_wrap_eq_emod {a n : ℤ} (hn : 0 < n) :
    (a.tmod n + n).tmod n = a % n := by
  have hlt : a.tmod n < n := Int.tmod_lt_of_pos a hn
  have hgt : -n < a.tmod n := by
    rcases le_or_lt 0 a with h | h
    · have := Int.tmod_nonneg n h; linarith
    · have h1 : (-a).tmod n < n := Int.tmod_lt_of_pos _ hn
      have h2 : (-a).tmod n = -(a.tmod n) := by
        simp [Int.tmod_def, Int.neg_tdiv]; ring
      linarith
  have h0 : 0 ≤ a.tmod n + n := by linarith
  rw [Int.tmod_eq_emod h0 (le_of_lt hn), Int.tmod_def]
  have h3 : a - n * a.tdiv n + n = a + n * (1 - a.tdiv n) := by ring
  rw [h3, Int.add_mul_emod_self_left]

/-- C8: for every particle position, the grid index at which the pusher
gathers the field equals the grid index at which the depositor scatters the
particle's charge, and both equal `round(x/dx)` reduced modulo `Ng` into
`[0, Ng)` (the Euclidean remainder). -/
theorem c8_gather_index_eq_deposit_index (pos dx : ℚ) (Ng : ℕ) (hNg : 0 < Ng) :
    gather_grid_index pos dx Ng = deposit_grid_index pos dx Ng ∧
    deposit_grid_index pos dx Ng = cround (pos / dx) % (Ng : ℤ) := by
  refine ⟨rfl, ?_⟩
  have hn : (0 : ℤ) < (Ng : ℤ) := by exact_mod_cast hNg
  exact tmod_wrap_eq_emod hn

theorem c8_witness :
    0 < 8 ∧
    (gather_grid_index (-77/3) (1/4) 8 = deposit_grid_index (-77/3) (1/4) 8 ∧
      deposit_grid_index (-77/3) (1/4) 8 = cround ((-77/3) / (1/4)) % (8 : ℤ)) :=
  ⟨by decide, c8_gather_index_eq_deposit_index (-77/3) (1/4) 8 (by decide)⟩

/-- C9: for every finite particle position — negative positions and positions
at or beyond `L` included — the grid index `((round(x/dx) mod Ng) + Ng) mod Ng`
lies in `[0, Ng)`, so deposition and field gathering access only in-bounds
entries of the `Ng`-cell arrays. -/
theorem c9_grid_index_in_bounds (pos dx : ℚ) (Ng : ℕ) (hNg : 0 < Ng) :
    (0 ≤ deposit_grid_index pos dx Ng ∧ deposit_grid_index pos dx Ng < (Ng : ℤ)) ∧
    (0 ≤ gather_grid_index pos dx Ng ∧ gather_grid_index pos dx Ng < (Ng : ℤ)) ∧
    ∀ rho : List ℚ, rho.length = Ng →
      (deposit_grid_index pos dx Ng).toNat < rho.length ∧
      (gather_grid_index pos dx Ng).toNat < rho.length := by
  have hn : (0 : ℤ) < (Ng : ℤ) := by exact_mod_cast hNg
  have h1 : deposit_grid_index pos dx Ng = cround (pos / dx) % (Ng : ℤ) :=
    tmod_wrap_eq_emod hn
  have h2 : gather_grid_index pos dx Ng = cround (pos / dx) % (Ng : ℤ) :=
    tmod_wrap_eq_emod hn
  have hge : 0 ≤ cround (pos / dx) % (Ng : ℤ) := Int.emod_nonneg _ (by omega)
  have hlt : cround (pos / dx) % (Ng : ℤ) < (Ng : ℤ) := Int.emod_lt_of_pos _ hn
  refine ⟨⟨by omega, by omega⟩, ⟨by omega, by omega⟩, ?_⟩
  intro rho hlen
  rw [hlen]
  omega

theorem c9_witness :
    0 < 16 ∧
    ((0 ≤ deposit_grid_index (-9/2) (1/8) 16 ∧
        deposit_grid_index (-9/2) (1/8) 16 < (16 : ℤ)) ∧
      (0 ≤ gather_grid_index (-9/2) (1/8) 16 ∧
        gather_grid_index (-9/2) (1/8) 16 < (16 : ℤ)) ∧
      ∀ rho : List ℚ, rho.length = 16 →
        (deposit_grid_index (-9/2) (1/8) 16).toNat < rho.length ∧
        (gather_grid_index (-9/2) (1/8) 16).toNat < rho.length) :=
  ⟨by decide, c9_grid_index_in_bounds (-9/2) (1/8) 16 (by decide)⟩

/-- Helper: setting entry `i` of a list to its old value plus `c` raises the
list sum by exactly `c`, for in-bounds `i`. -/
theorem sum_set_getD_add (l : List ℚ) (i : ℕ) (c : ℚ) (h : i < l.length) :
    (l.set i (l.getD i 0 + c)).sum = l.sum + c := by
  induction l generalizing i with
  | nil => simp at h
  | cons a t ih =>
    cases i with
    | zero =>
      rw [show (a :: t).set 0 ((a :: t).getD 0 0 + c)
          = ((a :: t).getD 0 0 + c) :: t from rfl]
      rw [List.getD_cons_zero, List.sum_cons, List.sum_cons]
      ring
    | succ n =>
      have hn : n < t.length := by simpa using h
      rw [List.set_cons_succ, List.getD_cons_succ, List.sum_cons, List.sum_cons,
        ih n hn]
      ring

/-- Helper: the deposition scatter never changes the grid length. -/
theorem deposit_charge_kernel_length (positions : List ℚ) (Q dx : ℚ) (Ng : ℕ) :
    ∀ rho : List ℚ, (deposit_charge_kernel positions Q dx Ng rho).length = rho.length := by
  induction positions with
  | nil => intro rho; rfl
  | cons p ps ih =>
    intro rho
    rw [show deposit_charge_kernel (p :: ps) Q dx Ng rho
        = deposit_charge_kernel ps Q dx Ng
            (rho.set (deposit_grid_index p dx Ng).toNat
              (rho.getD (deposit_grid_index p dx Ng).toNat 0 + Q / dx)) from rfl]
    rw [ih, List.length_set]

/-- Helper: each deposited particle adds exactly `Q / dx` to the grid sum. -/
theorem deposit_charge_kernel_sum (positions : List ℚ) (Q dx : ℚ) (Ng : ℕ)
    (hNg : 0 < Ng) :
    ∀ rho : List ℚ, rho.length = Ng →
      (deposit_charge_kernel positions Q dx Ng rho).sum
        = rho.sum + (positions.length : ℚ) * (Q / dx) := by
  induction positions with
  | nil => intro rho _; simp [deposit_charge_kernel]
  | cons p ps ih =>
    intro rho hlen
    have hn : (0 : ℤ) < (Ng : ℤ) := by exact_mod_cast hNg
    have h1 : deposit_grid_index p dx Ng = cround (p / dx) % (Ng : ℤ) :=
      tmod_wrap_eq_emod hn
    have hge : 0 ≤ cround (p / dx) % (Ng : ℤ) := Int.emod_nonneg _ (by omega)
    have hlt : cround (p / dx) % (Ng : ℤ) < (Ng : ℤ) := Int.emod_lt_of_pos _ hn
    have hidx : (deposit_grid_index p dx Ng).toNat < rho.length := by
      rw [hlen]; omega
    rw [show deposit_charge_kernel (p :: ps) Q dx Ng rho
        = deposit_charge_kernel ps Q dx Ng
            (rho.set (deposit_grid_index p dx Ng).toNat
              (rho.getD (deposit_grid_index p dx Ng).toNat 0 + Q / dx)) from rfl]
    rw [ih _ (by rw [List.length_set]; exact hlen)]
    rw [sum_set_getD_add _ _ _ hidx]
    push_cast [List.length_cons]
    ring

/-- C1: after the depositor scatters all `N` particles of a species onto the
zeroed density grid, and before the ion background is added, the sum over all
cells of `rho[i] * dx` equals `N * Q` exactly, for any particle positions. -/
theorem c1_deposited_charge_total (positions : List ℚ) (Q dx : ℚ) (Ng : ℕ)
    (hNg : 0 < Ng) (hdx : dx ≠ 0) :
    (deposit_charge_kernel positions Q dx Ng (List.replicate Ng 0)).sum * dx
      = (positions.length : ℚ) * Q := by
  rw [deposit_charge_kernel_sum positions Q dx Ng hNg _ (List.length_replicate Ng 0)]
  rw [List.sum_replicate, smul_zero, zero_add]
  field_simp

theorem c1_witness :
    0 < 4 ∧ ((1 : ℚ)/2 ≠ 0) ∧
    (deposit_charge_kernel [0, 3/5, -7] 2 (1/2) 4 (List.replicate 4 0)).sum * (1/2)
      = ((([(0 : ℚ), 3/5, -7]).length : ℚ)) * 2 :=
  ⟨by decide, by norm_num,
    c1_deposited_charge_total [0, 3/5, -7] 2 (1/2) 4 (by decide) (by norm_num)⟩

/-- Helper: the wrap `new_pos = fmod(new_pos, L); if (new_pos < 0) new_pos += L;`
always lands in `[0, L)` when `L > 0`. -/
theorem cfmod_wrap_mem (x L : ℚ) (hL : 0 < L) :
    0 ≤ (if cfmod x L < 0 then cfmod x L + L else cfmod x L) ∧
      (if cfmod x L < 0 then cfmod x L + L else cfmod x L) < L := by
  have hx : L * (x / L) = x := by field_simp
  rcases lt_or_le (x / L) 0 with ht | ht
  · have hq : ((qtrunc (x / L) : ℤ) : ℚ) = -((⌊-(x / L)⌋ : ℤ) : ℚ) := by
      simp only [qtrunc, if_pos ht]
      push_cast
      ring
    have hcf : cfmod x L = x + L * ((⌊-(x / L)⌋ : ℤ) : ℚ) := by
      rw [cfmod, hq]; ring
    have f1 : ((⌊-(x / L)⌋ : ℤ) : ℚ) ≤ -(x / L) := Int.floor_le _
    have f2 : -(x / L) < ((⌊-(x / L)⌋ : ℤ) : ℚ) + 1 := Int.lt_floor_add_one _
    have h1 : -L < cfmod x L := by
      have := mul_lt_mul_of_pos_left f2 hL
      rw [hcf]; nlinarith
    have h2 : cfmod x L ≤ 0 := by
      have := mul_le_mul_of_nonneg_left f1 hL.le
      rw [hcf]; nlinarith
    split_ifs with hw
    · exact ⟨by linarith, by linarith⟩
    · have h0 : cfmod x L = 0 := le_antisymm h2 (not_lt.mp hw)
      exact ⟨by linarith, by linarith⟩
  · have hq : ((qtrunc (x / L) : ℤ) : ℚ) = ((⌊x / L⌋ : ℤ) : ℚ) := by
      simp only [qtrunc, if_neg (not_lt.mpr ht)]
    have hcf : cfmod x L = x - L * ((⌊x / L⌋ : ℤ) : ℚ) := by
      rw [cfmod, hq]
    have f1 : ((⌊x / L⌋ : ℤ) : ℚ) ≤ x / L := Int.floor_le _
    have f2 : x / L < ((⌊x / L⌋ : ℤ) : ℚ) + 1 := Int.lt_floor_add_one _
    have h1 : 0 ≤ cfmod x L := by
      have := mul_le_mul_of_nonneg_left f1 hL.le
      rw [hcf]; nlinarith
    have h2 : cfmod x L < L := by
      have := mul_lt_mul_of_pos_left f2 hL
      rw [hcf]; nlinarith
    rw [if_neg (not_lt.mpr h1)]
    exact ⟨h1, h2⟩

/-- C2: after one application of the particle pusher every returned position
lies in `[0, L)`; in particular a particle crossing the right boundary wraps
back into `[0, L)` and never to a negative value. -/
theorem c2_pushed_positions_in_domain (xp vp Eg : List ℚ) (re dt dx : ℚ)
    (Ng : ℕ) (L : ℚ) (hL : 0 < L) :
    ∀ x ∈ (push_particles_kernel xp vp Eg re dt dx Ng L).1, 0 ≤ x ∧ x < L := by
  intro x hx
  simp only [push_particles_kernel, List.map_map, List.mem_map,
    Function.comp] at hx
  obtain ⟨p, _, hp⟩ := hx
  rw [← hp]
  simp only [push_one]
  exact cfmod_wrap_mem _ L hL

theorem c2_witness :
    0 < (64 : ℚ) ∧
    ∀ x ∈ (push_particles_kernel [255/4] [5] (List.replicate 256 0)
        (-1) (1/10) (1/4) 256 64).1, 0 ≤ x ∧ x < 64 :=
  ⟨by norm_num,
    c2_pushed_positions_in_domain [255/4] [5] (List.replicate 256 0)
      (-1) (1/10) (1/4) 256 64 (by norm_num)⟩

/-- C6 counterexample: with the two-stream setup
`re_1 = re_2 = -1`, `N1 = N2 = 10000`, `L = 64`, `wp_e = 1`, `N_ions = 20000`
the code computes `rho_ions = 2`, whereas `-(Q_1 + Q_2)/L * N_ions = 4`:
the background is computed from the first species' charge only, not from the
sum of the species charges. -/
theorem c6_counterexample :
    (charge (-1) (-1) 20000 10000 10000 64 1).2.2
      ≠ -(((charge (-1) (-1) 20000 10000 10000 64 1).1
          + (charge (-1) (-1) 20000 10000 10000 64 1).2.1) / 64) * 20000 := by
  norm_num [charge]

/-- Helper: `getD` of a list mapped by `(· + c)` at an in-bounds index. -/
theorem getD_map_add (l : List ℚ) (c : ℚ) (i : ℕ) (h : i < l.length) :
    (l.map (· + c)).getD i 0 = l.getD i 0 + c := by
  rw [List.getD_eq_getElem _ _ (by simpa using h), List.getD_eq_getElem _ _ h,
    List.getElem_map]

/-- C6 (amended): after both species deposit in a step, a uniform ion
background `rho_ions = -Q_1 / L * N_ions` — computed once at setup by `charge`
from the first species' macro-charge only, and constant for the whole run —
is added to every cell of the aggregated charge density. -/
theorem c6_ion_background (re_1 re_2 : ℚ) (N_ions N1 N2 : ℕ) (L wp_e : ℚ)
    (xp1 xp2 : List ℚ) (Q1 Q2 dx : ℚ) (Ng : ℕ) :
    (charge re_1 re_2 N_ions N1 N2 L wp_e).2.2
      = -(charge re_1 re_2 N_ions N1 N2 L wp_e).1 / L * (N_ions : ℚ) ∧
    ∀ i : Fin Ng,
      (step_charge_density xp1 xp2 Q1 Q2 dx Ng
          (charge re_1 re_2 N_ions N1 N2 L wp_e).2.2).getD (i : ℕ) 0
        = (deposit_charge_kernel xp2 Q2 dx Ng
            (deposit_charge_kernel xp1 Q1 dx Ng (List.replicate Ng 0))).getD (i : ℕ) 0
          + (charge re_1 re_2 N_ions N1 N2 L wp_e).2.2 := by
  constructor
  · simp [charge]
  · intro i
    have hlen : (deposit_charge_kernel xp2 Q2 dx Ng
        (deposit_charge_kernel xp1 Q1 dx Ng (List.replicate Ng 0))).length = Ng := by
      rw [deposit_charge_kernel_length, deposit_charge_kernel_length,
        List.length_replicate]
    simp only [step_charge_density]
    exact getD_map_add _ _ _ (by rw [hlen]; exact i.isLt)

/-- C10: the solved potential and field are insensitive to the last grid
cell's density: any two length-`Ng` density arrays agreeing on the first
`Ng-1` entries produce identical `Phi` and identical `Eg`. -/
theorem c10_solver_ignores_last_cell (Ng : ℕ) (dx : ℚ) (rho1 rho2 : List ℚ)
    (h1 : rho1.length = Ng) (h2 : rho2.length = Ng)
    (hagree : rho1.take (Ng - 1) = rho2.take (Ng - 1)) :
    solve_field_cpu rho1 Ng dx = solve_field_cpu rho2 Ng dx := by
  have hgetD : ∀ i : Fin (Ng - 1), rho1.getD (i : ℕ) 0 = rho2.getD (i : ℕ) 0 := by
    intro i
    have hi : (i : ℕ) < Ng - 1 := i.isLt
    have e1 : rho1[(i : ℕ)]? = (rho1.take (Ng - 1))[(i : ℕ)]? := by
      rw [List.getElem?_take, if_pos hi]
    have e2 : rho2[(i : ℕ)]? = (rho2.take (Ng - 1))[(i : ℕ)]? := by
      rw [List.getElem?_take, if_pos hi]
    rw [List.getD_eq_getElem?_getD, List.getD_eq_getElem?_getD, e1, e2, hagree]
  have hfun : (fun i : Fin (Ng - 1) => -(rho1.getD (i : ℕ) 0) * dx ^ 2)
      = fun i : Fin (Ng - 1) => -(rho2.getD (i : ℕ) 0) * dx ^ 2 := by
    funext i
    rw [hgetD i]
  simp only [solve_field_cpu, hfun]

theorem c10_witness :
    ([(1 : ℚ), 2, 3].length = 3) ∧ ([(1 : ℚ), 2, 7].length = 3) ∧
    ([(1 : ℚ), 2, 3].take 2 = [(1 : ℚ), 2, 7].take 2) ∧
    solve_field_cpu [1, 2, 3] 3 2 = solve_field_cpu [1, 2, 7] 3 2 :=
  ⟨rfl, rfl, rfl, c10_solver_ignores_last_cell 3 2 [1, 2, 3] [1, 2, 7] rfl rfl rfl⟩

/-- Helper: entrywise description of the tridiagonal operator as a sum of
three indicator terms (diagonal, sub-diagonal, super-diagonal). -/
theorem Ax_matrix_apply_split (m : ℕ) (i k : Fin m) :
    Ax_matrix m i k
      = (if k = i then (-2 : ℚ) else 0)
        + (if (k : ℕ) + 1 = (i : ℕ) then 1 else 0)
        + (if (k : ℕ) = (i : ℕ) + 1 then 1 else 0) := by
  simp only [Ax_matrix, Matrix.of_apply, Fin.ext_iff]
  split_ifs <;> first | omega | norm_num

/-- Helper: a sum over `Fin m` of a function supported on the single index
with value `t < m`. -/
theorem sum_if_val_eq {m : ℕ} (g : Fin m → ℚ) (t : ℕ) (ht : t < m) :
    (∑ k : Fin m, if (k : ℕ) = t then g k else 0) = g ⟨t, ht⟩ := by
  have h : ∀ k : Fin m, (if (k : ℕ) = t then g k else 0)
      = if k = (⟨t, ht⟩ : Fin m) then g k else 0 := by
    intro k
    by_cases hk : (k : ℕ) = t
    · rw [if_pos hk, if_pos (Fin.ext hk)]
    · rw [if_neg hk, if_neg (fun hc => hk (by rw [hc]))]
  rw [Finset.sum_congr rfl fun k _ => h k,
    Finset.sum_ite_eq' Finset.univ (⟨t, ht⟩ : Fin m) g]
  simp

/-- Helper: the same sum vanishes when the selected index is out of range. -/
theorem sum_if_val_eq_zero {m : ℕ} (g : Fin m → ℚ) (t : ℕ) (ht : ¬ t < m) :
    (∑ k : Fin m, if (k : ℕ) = t then g k else 0) = 0 := by
  apply Finset.sum_eq_zero
  intro k _
  rw [if_neg]
  intro hk
  exact ht (hk ▸ k.isLt)

/-- Helper: the three-point identity showing that the rows of the explicit
inverse invert the tridiagonal operator. -/
theorem Ax_inv_entry_three_point (m a b : ℕ) (ha : a < m) (hb : b < m) :
    -2 * Ax_inv_entry m a b
      + (if 0 < a then Ax_inv_entry m (a - 1) b else 0)
      + (if a + 1 < m then Ax_inv_entry m (a + 1) b else 0)
      = if a = b then 1 else 0 := by
  have hm1 : ((m : ℚ) + 1) ≠ 0 := by positivity
  unfold Ax_inv_entry
  rcases Nat.lt_trichotomy b a with h | h | h
  · rw [if_pos (show 0 < a by omega), if_neg (show ¬ a = b by omega),
      show min a b = b from by omega, show max a b = a from by omega,
      show min (a - 1) b = b from by omega, show max (a - 1) b = a - 1 from by omega]
    by_cases hn : a + 1 < m
    · rw [if_pos hn, show min (a + 1) b = b from by omega,
        show max (a + 1) b = a + 1 from by omega]
      push_cast [Nat.cast_sub (show a - 1 ≤ m by omega),
        Nat.cast_sub (show a ≤ m by omega), Nat.cast_sub (show a + 1 ≤ m by omega),
        Nat.cast_sub (show 1 ≤ a by omega)]
      field_simp
      ring
    · rw [if_neg hn]
      have ham : (m : ℚ) = (a : ℚ) + 1 := by exact_mod_cast (show m = a + 1 by omega)
      push_cast [Nat.cast_sub (show a - 1 ≤ m by omega),
        Nat.cast_sub (show a ≤ m by omega), Nat.cast_sub (show 1 ≤ a by omega)]
      rw [ham]
      field_simp
      ring
  · subst h
    rw [if_pos rfl, show min b b = b from by omega, show max b b = b from by omega]
    by_cases h0 : 0 < b <;> by_cases hn : b + 1 < m
    · rw [if_pos h0, if_pos hn, show min (b - 1) b = b - 1 from by omega,
        show max (b - 1) b = b from by omega, show min (b + 1) b = b from by omega,
        show max (b + 1) b = b + 1 from by omega]
      push_cast [Nat.cast_sub (show b ≤ m by omega),
        Nat.cast_sub (show b + 1 ≤ m by omega), Nat.cast_sub (show 1 ≤ b by omega)]
      field_simp
      ring
    · rw [if_pos h0, if_neg hn, show min (b - 1) b = b - 1 from by omega,
        show max (b - 1) b = b from by omega]
      have hbm : (m : ℚ) = (b : ℚ) + 1 := by exact_mod_cast (show m = b + 1 by omega)
      push_cast [Nat.cast_sub (show b ≤ m by omega), Nat.cast_sub (show 1 ≤ b by omega)]
      rw [hbm]
      field_simp
      ring
    · have hb0 : b = 0 := by omega
      subst hb0
      rw [if_neg h0, if_pos hn]
      rw [show min (0 + 1) 0 = 0 from by omega, show max (0 + 1) 0 = 0 + 1 from by omega]
      push_cast [Nat.cast_sub (show (1 : ℕ) ≤ m by omega)]
      field_simp
      ring
    · have hb0 : b = 0 := by omega
      subst hb0
      have hm : m = 1 := by omega
      subst hm
      norm_num
  · rw [if_pos (show a + 1 < m by omega), if_neg (show ¬ a = b by omega),
      show min a b = a from by omega, show max a b = b from by omega,
      show min (a + 1) b = a + 1 from by omega, show max (a + 1) b = b from by omega]
    by_cases h0 : 0 < a
    · rw [if_pos h0, show min (a - 1) b = a - 1 from by omega,
        show max (a - 1) b = b from by omega]
      push_cast [Nat.cast_sub (show b ≤ m by omega), Nat.cast_sub (show 1 ≤ a by omega)]
      field_simp
      ring
    · have ha0 : a = 0 := by omega
      subst ha0
      rw [if_neg h0]
      push_cast [Nat.cast_sub (show b ≤ m by omega)]
      field_simp
      ring

/-- Helper: the explicit inverse is a right inverse of the tridiagonal
operator, so multiplying by it yields the unique solution of the system. -/
theorem Ax_matrix_mul_inv (m : ℕ) : Ax_matrix m * Ax_inv m = 1 := by
  ext i j
  rw [Matrix.mul_apply, Matrix.one_apply]
  have expand : ∀ k : Fin m, Ax_matrix m i k * Ax_inv m k j
      = (if k = i then (-2 : ℚ) * Ax_inv_entry m (k : ℕ) (j : ℕ) else 0)
        + (if (k : ℕ) + 1 = (i : ℕ) then Ax_inv_entry m (k : ℕ) (j : ℕ) else 0)
        + (if (k : ℕ) = (i : ℕ) + 1 then Ax_inv_entry m (k : ℕ) (j : ℕ) else 0) := by
    intro k
    rw [Ax_matrix_apply_split, add_mul, add_mul, ite_mul, ite_mul, ite_mul]
    simp only [zero_mul, one_mul, Ax_inv, Matrix.of_apply]
  rw [Finset.sum_congr rfl fun k _ => expand k, Finset.sum_add_distrib,
    Finset.sum_add_distrib,
    Finset.sum_ite_eq' Finset.univ i fun k => (-2 : ℚ) * Ax_inv_entry m (k : ℕ) (j : ℕ)]
  have hT2 : (∑ k : Fin m, if (k : ℕ) + 1 = (i : ℕ)
        then Ax_inv_entry m (k : ℕ) (j : ℕ) else 0)
      = if 0 < (i : ℕ) then Ax_inv_entry m ((i : ℕ) - 1) (j : ℕ) else 0 := by
    by_cases h0 : 0 < (i : ℕ)
    · rw [if_pos h0]
      have hcong : ∀ k : Fin m,
          (if (k : ℕ) + 1 = (i : ℕ) then Ax_inv_entry m (k : ℕ) (j : ℕ) else 0)
            = if (k : ℕ) = (i : ℕ) - 1 then Ax_inv_entry m (k : ℕ) (j : ℕ) else 0 := by
        intro k
        by_cases hk : (k : ℕ) + 1 = (i : ℕ)
        · rw [if_pos hk, if_pos (by omega)]
        · rw [if_neg hk, if_neg (by omega)]
      rw [Finset.sum_congr rfl fun k _ => hcong k,
        sum_if_val_eq (fun k => Ax_inv_entry m (k : ℕ) (j : ℕ)) ((i : ℕ) - 1)
          (by omega)]
    · rw [if_neg h0]
      apply Finset.sum_eq_zero
      intro k _
      rw [if_neg (by omega)]
  have hT3 : (∑ k : Fin m, if (k : ℕ) = (i : ℕ) + 1
        then Ax_inv_entry m (k : ℕ) (j : ℕ) else 0)
      = if (i : ℕ) + 1 < m then Ax_inv_entry m ((i : ℕ) + 1) (j : ℕ) else 0 := by
    by_cases hn : (i : ℕ) + 1 < m
    · rw [if_pos hn,
        sum_if_val_eq (fun k => Ax_inv_entry m (k : ℕ) (j : ℕ)) ((i : ℕ) + 1) hn]
    · rw [if_neg hn,
        sum_if_val_eq_zero (fun k => Ax_inv_entry m (k : ℕ) (j : ℕ)) ((i : ℕ) + 1) hn]
  rw [hT2, hT3]
  simp only [Finset.mem_univ, if_true]
  rw [show (if i = j then (1 : ℚ) else 0) = if (i : ℕ) = (j : ℕ) then 1 else 0 from
    by simp [Fin.ext_iff]]
  exact Ax_inv_entry_three_point m (i : ℕ) (j : ℕ) i.isLt j.isLt

/-- Helper: an interior entry of the returned potential list is the
corresponding entry of the solved linear system. -/
theorem solve_field_getD_lt (rho : List ℚ) (Ng : ℕ) (dx : ℚ) (k : ℕ)
    (hk : k < Ng - 1) :
    (solve_field_cpu rho Ng dx).1.getD k 0
      = ((Ax_inv (Ng - 1)).mulVec
          fun i : Fin (Ng - 1) => -(rho.getD (i : ℕ) 0) * dx ^ 2) ⟨k, hk⟩ := by
  simp only [solve_field_cpu]
  rw [List.getD_eq_getElem?_getD, List.getElem?_append,
    if_pos (by rw [List.length_ofFn]; exact hk), List.getElem?_ofFn]
  simp [List.ofFnNthVal, hk]

/-- C3: for every density array `rho` of length `Ng`, the field solver returns
`Phi` of length `Ng` whose first `Ng-1` entries solve `A * Phi = -rho * dx^2`
for the `(Ng-1) x (Ng-1)` tridiagonal operator, whose last entry is exactly
`0` (pinning the gauge), and a field `E` of length `Ng` with
`E[i] = (Phi[(i-1) mod Ng] - Phi[(i+1) mod Ng]) / (2 dx)` using wrap-around
indexing at both boundaries. -/
theorem c3_solve_field_spec (rho : List ℚ) (Ng : ℕ) (dx : ℚ)
    (hNg : 1 ≤ Ng) (hlen : rho.length = Ng) :
    (solve_field_cpu rho Ng dx).1.length = Ng ∧
    (∀ i : Fin (Ng - 1),
      (poisson_equation_preparation Ng).mulVec
          (fun k : Fin (Ng - 1) => (solve_field_cpu rho Ng dx).1.getD (k : ℕ) 0) i
        = -(rho.getD (i : ℕ) 0) * dx ^ 2) ∧
    (solve_field_cpu rho Ng dx).1.getD (Ng - 1) 0 = 0 ∧
    (solve_field_cpu rho Ng dx).2.length = Ng ∧
    (∀ i : Fin Ng,
      (solve_field_cpu rho Ng dx).2.getD (i : ℕ) 0
        = ((solve_field_cpu rho Ng dx).1.getD (((i : ℕ) + (Ng - 1)) % Ng) 0
            - (solve_field_cpu rho Ng dx).1.getD (((i : ℕ) + 1) % Ng) 0)
          / (2 * dx)) := by
  refine ⟨?_, ?_, ?_, ?_, ?_⟩
  · simp only [solve_field_cpu]
    rw [List.length_append, List.length_ofFn]
    simp only [List.length_cons, List.length_nil]
    omega
  · intro i
    have hfun : (fun k : Fin (Ng - 1) => (solve_field_cpu rho Ng dx).1.getD (k : ℕ) 0)
        = (Ax_inv (Ng - 1)).mulVec
            fun k : Fin (Ng - 1) => -(rho.getD (k : ℕ) 0) * dx ^ 2 := by
      funext k
      exact solve_field_getD_lt rho Ng dx (k : ℕ) k.isLt
    rw [hfun]
    simp only [poisson_equation_preparation]
    rw [Matrix.mulVec_mulVec, Ax_matrix_mul_inv, Matrix.one_mulVec]
  · simp only [solve_field_cpu]
    rw [List.getD_eq_getElem?_getD, List.getElem?_append,
      if_neg (by rw [List.length_ofFn]; omega)]
    rw [List.length_ofFn]
    simp
  · simp only [solve_field_cpu]
    rw [List.length_ofFn]
  · intro i
    simp only [solve_field_cpu]
    rw [List.getD_eq_getElem?_getD, List.getElem?_ofFn]
    simp [List.ofFnNthVal, i.isLt]

theorem c3_witness :
    1 ≤ 3 ∧ [(1 : ℚ), 2, 5].length = 3 ∧
    ((solve_field_cpu [1, 2, 5] 3 2).1.length = 3 ∧
      (∀ i : Fin (3 - 1),
        (poisson_equation_preparation 3).mulVec
            (fun k : Fin (3 - 1) => (solve_field_cpu [1, 2, 5] 3 2).1.getD (k : ℕ) 0) i
          = -([(1 : ℚ), 2, 5].getD (i : ℕ) 0) * 2 ^ 2) ∧
      (solve_field_cpu [1, 2, 5] 3 2).1.getD (3 - 1) 0 = 0 ∧
      (solve_field_cpu [1, 2, 5] 3 2).2.length = 3 ∧
      (∀ i : Fin 3,
        (solve_field_cpu [1, 2, 5] 3 2).2.getD (i : ℕ) 0
          = ((solve_field_cpu [1, 2, 5] 3 2).1.getD (((i : ℕ) + (3 - 1)) % 3) 0
              - (solve_field_cpu [1, 2, 5] 3 2).1.getD (((i : ℕ) + 1) % 3) 0)
            / (2 * 2))) :=
  ⟨by decide, rfl, c3_solve_field_spec [1, 2, 5] 3 2 (by decide) rfl⟩

/-- Helper: the returned potential list has length `Ng`. -/
theorem solve_field_cpu_fst_length (rho : List ℚ) (Ng : ℕ) (dx : ℚ)
    (hNg : 1 ≤ Ng) : (solve_field_cpu rho Ng dx).1.length = Ng := by
  simp only [solve_field_cpu]
  rw [List.length_append, List.length_ofFn]
  simp only [List.length_cons, List.length_nil]
  omega

/-- Helper: the returned field list has length `Ng`. -/
theorem solve_field_cpu_snd_length (rho : List ℚ) (Ng : ℕ) (dx : ℚ) :
    (solve_field_cpu rho Ng dx).2.length = Ng := by
  simp only [solve_field_cpu]
  rw [List.length_ofFn]

/-- Helper: the aggregated step density has length `Ng`. -/
theorem step_charge_density_length (xp1 xp2 : List ℚ) (Q1 Q2 dx : ℚ) (Ng : ℕ)
    (rho_ions : ℚ) :
    (step_charge_density xp1 xp2 Q1 Q2 dx Ng rho_ions).length = Ng := by
  simp only [step_charge_density]
  rw [List.length_map, deposit_charge_kernel_length, deposit_charge_kernel_length,
    List.length_replicate]

/-- Helper: the loop emits frames exactly at the iterations passing the
snapshot test `it % max 1 (steps / 50) == 0 or it == steps - 1`. -/
theorem simulation_loop_map_iteration (Ng : ℕ) (dx dt L Q1 Q2 re_1 re_2 rho_ions : ℚ)
    (steps : ℕ) :
    ∀ (n it : ℕ) (s : SimState),
      (simulation_loop Ng dx dt L Q1 Q2 re_1 re_2 rho_ions steps s it n).map
          Frame.iteration
        = (List.range' it n).filter
            fun k => decide (k % max 1 (steps / 50) = 0 ∨ k = steps - 1) := by
  intro n
  induction n with
  | zero => intro it s; rfl
  | succ n ih =>
    intro it s
    simp only [simulation_loop]
    rw [List.range'_succ]
    split_ifs with hcond
    · rw [List.map_cons, ih, List.filter_cons, if_pos (by simpa using hcond)]
    · rw [ih, List.filter_cons, if_neg (by simpa using hcond)]

/-- Helper: every emitted frame records `time = iteration * dt` and grid
arrays of length `Ng`. -/
theorem simulation_loop_frame_facts (Ng : ℕ) (dx dt L Q1 Q2 re_1 re_2 rho_ions : ℚ)
    (steps : ℕ) (hNg : 1 ≤ Ng) :
    ∀ (n it : ℕ) (s : SimState) (f : Frame),
      f ∈ simulation_loop Ng dx dt L Q1 Q2 re_1 re_2 rho_ions steps s it n →
      f.time = (f.iteration : ℚ) * dt ∧ f.electric_field.length = Ng ∧
        f.potential.length = Ng ∧ f.charge_density.length = Ng := by
  intro n
  induction n with
  | zero => intro it s f hf; simp [simulation_loop] at hf
  | succ n ih =>
    intro it s f hf
    simp only [simulation_loop] at hf
    split_ifs at hf with hcond
    · rcases List.mem_cons.mp hf with h | h
      · subst h
        refine ⟨rfl, ?_, ?_, ?_⟩
        · exact solve_field_cpu_snd_length _ _ _
        · exact solve_field_cpu_fst_length _ _ _ hNg
        · exact step_charge_density_length _ _ _ _ _ _ _
      · exact ih (it + 1) _ f h
    · exact ih (it + 1) _ f hf

/-- C7: the loop emits a frame exactly at the iterations that are multiples
of `K = max(1, steps / 50)` plus the final iteration; with `Ng = 256` and
`steps = 10` it emits exactly 10 frames, whose times equal `iteration * dt`
and increase strictly, and whose field, potential and charge-density arrays
each have length `Ng`. -/
theorem c7_frame_schedule :
    (∀ (Ng steps : ℕ) (Q1 Q2 re_1 re_2 rho_ions : ℚ) (s0 : SimState),
      (run_simulation Ng steps Q1 Q2 re_1 re_2 rho_ions s0).map Frame.iteration
        = (List.range steps).filter
            fun k => decide (k % max 1 (steps / 50) = 0 ∨ k = steps - 1)) ∧
    (∀ (Q1 Q2 re_1 re_2 rho_ions : ℚ) (s0 : SimState),
      (run_simulation 256 10 Q1 Q2 re_1 re_2 rho_ions s0).length = 10 ∧
      (run_simulation 256 10 Q1 Q2 re_1 re_2 rho_ions s0).map Frame.iteration
        = List.range 10 ∧
      (∀ f ∈ run_simulation 256 10 Q1 Q2 re_1 re_2 rho_ions s0,
        f.time = (f.iteration : ℚ) * (1 / 10)) ∧
      List.Chain' (· < ·)
        ((run_simulation 256 10 Q1 Q2 re_1 re_2 rho_ions s0).map Frame.time) ∧
      (∀ f ∈ run_simulation 256 10 Q1 Q2 re_1 re_2 rho_ions s0,
        f.electric_field.length = 256 ∧ f.potential.length = 256 ∧
          f.charge_density.length = 256)) := by
  have hgen : ∀ (Ng steps : ℕ) (Q1 Q2 re_1 re_2 rho_ions : ℚ) (s0 : SimState),
      (run_simulation Ng steps Q1 Q2 re_1 re_2 rho_ions s0).map Frame.iteration
        = (List.range steps).filter
            fun k => decide (k % max 1 (steps / 50) = 0 ∨ k = steps - 1) := by
    intro Ng steps Q1 Q2 re_1 re_2 rho_ions s0
    rw [List.range_eq_range']
    simp only [run_simulation]
    exact simulation_loop_map_iteration Ng (64 / (Ng : ℚ)) (1 / 10) 64
      Q1 Q2 re_1 re_2 rho_ions steps steps 0 s0
  refine ⟨hgen, ?_⟩
  intro Q1 Q2 re_1 re_2 rho_ions s0
  have hiter : (run_simulation 256 10 Q1 Q2 re_1 re_2 rho_ions s0).map Frame.iteration
      = List.range 10 := by
    rw [hgen]
    decide
  have hfacts : ∀ f ∈ run_simulation 256 10 Q1 Q2 re_1 re_2 rho_ions s0,
      f.time = (f.iteration : ℚ) * (1 / 10) ∧ f.electric_field.length = 256 ∧
        f.potential.length = 256 ∧ f.charge_density.length = 256 := by
    intro f hf
    simp only [run_simulation] at hf
    exact simulation_loop_frame_facts 256 (64 / ((256 : ℕ) : ℚ)) (1 / 10) 64
      Q1 Q2 re_1 re_2 rho_ions 10 (by norm_num) 10 0 s0 f hf
  refine ⟨?_, hiter, fun f hf => (hfacts f hf).1, ?_, fun f hf => (hfacts f hf).2⟩
  · rw [← List.length_map (run_simulation 256 10 Q1 Q2 re_1 re_2 rho_ions s0)
      Frame.iteration, hiter, List.length_range]
  · have hmap : (run_simulation 256 10 Q1 Q2 re_1 re_2 rho_ions s0).map Frame.time
        = (List.range 10).map fun n : ℕ => (n : ℚ) * (1 / 10) := by
      rw [List.map_congr_left fun f hf => (hfacts f hf).1]
      rw [show (fun f : Frame => (f.iteration : ℚ) * (1 / 10))
          = (fun n : ℕ => (n : ℚ) * (1 / 10)) ∘ Frame.iteration from rfl]
      rw [← List.map_map, hiter]
    rw [hmap]
    rw [List.chain'_map]
    rw [show (10 : ℕ) = Nat.succ 9 from rfl]
    rw [List.chain'_range_succ]
    intro m hm
    push_cast
    linarith

/-- Helper: every sample accepted from a batch is a candidate
`v_min + r1 * (v_max - v_min)` with `r1` in `[0, 1]`, hence lies in
`[v_min, v_max]`. -/
theorem accept_batch_mem (v_min v_max v_0 v_th : ℝ) (hv : v_min ≤ v_max) :
    ∀ b : List (ℝ × ℝ), (∀ p ∈ b, 0 ≤ p.1 ∧ p.1 ≤ 1) →
      ∀ v ∈ accept_batch v_min v_max v_0 v_th b, v_min ≤ v ∧ v ≤ v_max := by
  intro b
  induction b with
  | nil => intro _ v hv'; simp [accept_batch] at hv'
  | cons p rest ih =>
    intro hb v hv'
    simp only [accept_batch] at hv'
    split_ifs at hv' with hcond
    · rcases List.mem_cons.mp hv' with h | h
      · subst h
        have hp := hb p (List.mem_cons_self p rest)
        constructor
        · have h1 : 0 ≤ p.1 * (v_max - v_min) := mul_nonneg hp.1 (by linarith)
          linarith
        · have h2 : p.1 * (v_max - v_min) ≤ 1 * (v_max - v_min) :=
            mul_le_mul_of_nonneg_right hp.2 (by linarith)
          linarith
      · exact ih (fun q hq => hb q (List.mem_cons_of_mem p hq)) v h
    · exact ih (fun q hq => hb q (List.mem_cons_of_mem p hq)) v hv'

/-- Helper: whenever the rejection loop returns a sample list, it has exactly
`N` entries and all of them lie in `[v_min, v_max]` (given that the already
accumulated samples do). -/
theorem ar_loop_spec (v_min v_max v_0 v_th : ℝ) (N : ℕ) (hv : v_min ≤ v_max) :
    ∀ (batches : List (List (ℝ × ℝ))) (acc out : List ℝ),
      (∀ b ∈ batches, ∀ p ∈ b, 0 ≤ p.1 ∧ p.1 ≤ 1) →
      (∀ v ∈ acc, v_min ≤ v ∧ v ≤ v_max) →
      ar_loop v_min v_max v_0 v_th N acc batches = some out →
      out.length = N ∧ ∀ v ∈ out, v_min ≤ v ∧ v ≤ v_max := by
  intro batches
  induction batches with
  | nil =>
    intro acc out _ hacc hrun
    simp only [ar_loop] at hrun
    split_ifs at hrun with hN
    · have heq : acc.take N = out := Option.some.inj hrun
      subst heq
      refine ⟨?_, ?_⟩
      · rw [List.length_take]; omega
      · intro v hvmem
        exact hacc v (List.take_subset N acc hvmem)
  | cons b rest ih =>
    intro acc out hb hacc hrun
    simp only [ar_loop] at hrun
    split_ifs at hrun with hN
    · have heq : acc.take N = out := Option.some.inj hrun
      subst heq
      refine ⟨?_, ?_⟩
      · rw [List.length_take]; omega
      · intro v hvmem
        exact hacc v (List.take_subset N acc hvmem)
    · refine ih (acc ++ accept_batch v_min v_max v_0 v_th b) out
        (fun b' h' => hb b' (List.mem_cons_of_mem b h')) ?_ hrun
      intro v hvm
      rcases List.mem_append.mp hvm with h | h
      · exact hacc v h
      · exact accept_batch_mem v_min v_max v_0 v_th hv b
          (hb b (List.mem_cons_self b rest)) v h

/-- C4: for `N ≥ 1` and `v_0, v_th` with `v_min ≤ v_max`, whenever the
acceptance-rejection sampler (batches of `3N` candidates uniform in
`[v_min, v_max]`, thresholds scaled by the Maxwellian's peak at `v_0`,
acceptance exactly when the threshold is below the distribution's value,
truncation of the accumulated samples) returns, it returns exactly `N`
samples, each lying in `[v_min, v_max]`. -/
theorem c4_acceptance_rejection_spec (v_min v_max v_0 v_th : ℝ) (N : ℕ)
    (batches : List (List (ℝ × ℝ))) (out : List ℝ)
    (hN : 1 ≤ N) (hv : v_min ≤ v_max)
    (hbatch : ∀ b ∈ batches, b.length = 3 * N)
    (hrand : ∀ b ∈ batches, ∀ p ∈ b,
      ((0 : ℝ) ≤ p.1 ∧ p.1 ≤ 1) ∧ ((0 : ℝ) ≤ p.2 ∧ p.2 ≤ 1))
    (hout : acceptance_rejection_cupy v_min v_max v_0 v_th N batches = some out) :
    out.length = N ∧ ∀ v ∈ out, v_min ≤ v ∧ v ≤ v_max := by
  simp only [acceptance_rejection_cupy] at hout
  exact ar_loop_spec v_min v_max v_0 v_th N hv batches [] out
    (fun b hb p hp => (hrand b hb p hp).1) (by simp) hout

theorem c4_witness :
    1 ≤ 1 ∧ (0 : ℝ) ≤ 1 ∧
    (∀ b ∈ [[((1 : ℝ)/2, (0 : ℝ)), (0, 0), (0, 0)]], b.length = 3 * 1) ∧
    (∀ b ∈ [[((1 : ℝ)/2, (0 : ℝ)), (0, 0), (0, 0)]], ∀ p ∈ b,
      ((0 : ℝ) ≤ p.1 ∧ p.1 ≤ 1) ∧ ((0 : ℝ) ≤ p.2 ∧ p.2 ≤ 1)) ∧
    acceptance_rejection_cupy 0 1 0 1 1 [[((1 : ℝ)/2, (0 : ℝ)), (0, 0), (0, 0)]]
      = some [(1 : ℝ)/2] ∧
    ([(1 : ℝ)/2].length = 1 ∧ ∀ v ∈ [(1 : ℝ)/2], (0 : ℝ) ≤ v ∧ v ≤ 1) := by
  have hpos : ∀ r : ℝ, 0 < maxwell_boltzman_dist_1D_cupy r 0 1 := by
    intro r
    unfold maxwell_boltzman_dist_1D_cupy
    positivity
  have hab : accept_batch 0 1 0 1 [((1 : ℝ)/2, (0 : ℝ)), (0, 0), (0, 0)]
      = [(1 : ℝ)/2, 0, 0] := by
    simp only [accept_batch]
    norm_num [hpos]
  have hrun : acceptance_rejection_cupy 0 1 0 1 1
      [[((1 : ℝ)/2, (0 : ℝ)), (0, 0), (0, 0)]] = some [(1 : ℝ)/2] := by
    simp only [acceptance_rejection_cupy, ar_loop, List.length_nil,
      List.nil_append, hab]
    norm_num [List.take_succ_cons, List.take_zero]
  have hrand : ∀ b ∈ [[((1 : ℝ)/2, (0 : ℝ)), (0, 0), (0, 0)]], ∀ p ∈ b,
      ((0 : ℝ) ≤ p.1 ∧ p.1 ≤ 1) ∧ ((0 : ℝ) ≤ p.2 ∧ p.2 ≤ 1) := by
    intro b hb p hp
    simp only [List.mem_singleton] at hb
    subst hb
    simp only [List.mem_cons, List.not_mem_nil, or_false] at hp
    rcases hp with h | h | h <;> subst h <;> norm_num
  have hbatch : ∀ b ∈ [[((1 : ℝ)/2, (0 : ℝ)), (0, 0), (0, 0)]], b.length = 3 * 1 := by
    intro b hb
    simp only [List.mem_singleton] at hb
    subst hb
    rfl
  exact ⟨le_refl 1, by norm_num, hbatch, hrand, hrun,
    c4_acceptance_rejection_spec 0 1 0 1 1 _ _ (le_refl 1) (by norm_num)
      hbatch hrand hrun⟩

/-- C5 counterexample: `np.linspace(0, L, N)` includes the endpoint, so with
`N = 2`, `L = 64` and no perturbation the loader produces the position
`x = 64 = L`, which is not strictly less than `L`: the unperturbed positions
are NOT all inside `[0, L)`. -/
theorem c5_counterexample :
    ∃ x ∈ initial_loading_positions 2 0 0 64, ¬ x < 64 := by
  refine ⟨64, ?_, by norm_num⟩
  simp only [initial_loading_positions, if_neg (show ¬ (0 : ℝ) ≠ 0 by norm_num)]
  rw [List.mem_map]
  refine ⟨1, List.mem_range.mpr (by norm_num), ?_⟩
  push_cast
  norm_num

/-- C5 (amended): the loader produces `N` positions uniformly spaced over the
CLOSED interval `[0, L]` — `x_i = i * L / (N - 1)`, so every unperturbed
position is at least `0` and at most `L`, and the last one equals `L`
exactly — and, when the amplitude is nonzero, perturbs each position as
`x_i += amplitude * cos(2 pi mode x_i / L)` without re-wrapping into
`[0, L)`. -/
theorem c5_initial_positions (N : ℕ) (amplitude mode L : ℝ)
    (hN : 2 ≤ N) (hL : 0 < L) :
    (initial_loading_positions N amplitude mode L).length = N ∧
    (amplitude = 0 → ∀ i : ℕ, i < N →
      (initial_loading_positions N amplitude mode L).getD i 0
        = (i : ℝ) * L / ((N : ℝ) - 1)) ∧
    (amplitude = 0 → ∀ x ∈ initial_loading_positions N amplitude mode L,
      0 ≤ x ∧ x ≤ L) ∧
    (amplitude = 0 →
      (initial_loading_positions N amplitude mode L).getD (N - 1) 0 = L) ∧
    (amplitude ≠ 0 → initial_loading_positions N amplitude mode L
      = ((List.range N).map fun i : ℕ => (i : ℝ) * L / ((N : ℝ) - 1)).map
          fun x => x + amplitude * Real.cos (2 * Real.pi * mode * x / L)) := by
  have hN1 : (0 : ℝ) < (N : ℝ) - 1 := by
    have h2 : (2 : ℝ) ≤ (N : ℝ) := by exact_mod_cast hN
    linarith
  refine ⟨?_, ?_, ?_, ?_, ?_⟩
  · simp only [initial_loading_positions]
    split_ifs <;> simp
  · intro h0 i hi
    subst h0
    simp only [initial_loading_positions, if_neg (show ¬ (0 : ℝ) ≠ 0 by norm_num)]
    rw [List.getD_eq_getElem _ _ (by rw [List.length_map, List.length_range]; exact hi),
      List.getElem_map, List.getElem_range]
  · intro h0 x hx
    subst h0
    simp only [initial_loading_positions,
      if_neg (show ¬ (0 : ℝ) ≠ 0 by norm_num)] at hx
    rw [List.mem_map] at hx
    obtain ⟨i, hi, rfl⟩ := hx
    have hiN : i < N := List.mem_range.mp hi
    have hcast : (i : ℝ) ≤ (N : ℝ) - 1 := by
      have h1 : (i : ℝ) + 1 ≤ (N : ℝ) := by exact_mod_cast hiN
      linarith
    constructor
    · positivity
    · rw [div_le_iff₀ hN1]
      nlinarith [mul_le_mul_of_nonneg_right hcast hL.le]
  · intro h0
    subst h0
    simp only [initial_loading_positions, if_neg (show ¬ (0 : ℝ) ≠ 0 by norm_num)]
    have hlt : N - 1 < N := by omega
    rw [List.getD_eq_getElem _ _ (by rw [List.length_map, List.length_range]; exact hlt),
      List.getElem_map, List.getElem_range, Nat.cast_sub (by omega)]
    have hne : (N : ℝ) - 1 ≠ 0 := ne_of_gt hN1
    field_simp
  · intro hA
    simp only [initial_loading_positions, if_pos hA]

theorem c5_witness :
    2 ≤ 2 ∧ (0 : ℝ) < 64 ∧
    ((initial_loading_positions 2 0 0 64).length = 2 ∧
      ((0 : ℝ) = 0 → ∀ i : ℕ, i < 2 →
        (initial_loading_positions 2 0 0 64).getD i 0
          = (i : ℝ) * 64 / (((2 : ℕ) : ℝ) - 1)) ∧
      ((0 : ℝ) = 0 → ∀ x ∈ initial_loading_positions 2 0 0 64,
        0 ≤ x ∧ x ≤ 64) ∧
      ((0 : ℝ) = 0 → (initial_loading_positions 2 0 0 64).getD (2 - 1) 0 = 64) ∧
      ((0 : ℝ) ≠ 0 → initial_loading_positions 2 0 0 64
        = ((List.range 2).map fun i : ℕ => (i : ℝ) * 64 / (((2 : ℕ) : ℝ) - 1)).map
            fun x => x + 0 * Real.cos (2 * Real.pi * 0 * x / 64))) :=
  ⟨le_refl 2, by norm_num,
    c5_initial_positions 2 0 0 64 (le_refl 2) (by norm_num)⟩
